/-
Verification of the terminal session interception engine
(RingBuffer, Structured History Store, OSC 133 Control-Protocol Parser,
Input Interceptor) against its natural-language specification.

The definitions below are a shallow embedding of the Go source
(`shell_session.go` region: RingBuffer, SessionHistory, SessionParser,
runSession input loop).  Go byte strings are modelled as `List Char`
(all protocol-relevant bytes are ASCII, and no ASCII byte occurs inside
a multi-byte UTF-8 rune, so byte-level and rune-level scanning agree on
the patterns involved).  Go `int` is modelled as `Int`/`Nat`; `time.Now()`
is an external input threaded through as an explicit `now : Nat` argument.
-/
import Mathlib

set_option linter.unusedVariables false

/-! ## RingBuffer

Embeds:

    func (r *RingBuffer) Write(p []byte) (n int, err error)
    func (r *RingBuffer) String() string

`listCopy dst src` models Go's `copy(dst, src)` (copies
`min (len dst) (len src)` elements to the front of `dst`, keeping the
rest of `dst`); `copySeg d i src` models `copy(d[i:], src)` (the slice
shares backing storage with `d`). -/

structure RingBuffer where
  data : List Char
  size : Nat
  pos : Nat
  full : Bool
deriving DecidableEq

def NewRingBuffer (size : Nat) : RingBuffer :=
  { data := List.replicate size '\x00', size := size, pos := 0, full := false }

def listCopy (dst src : List Char) : List Char :=
  src.take dst.length ++ dst.drop (min src.length dst.length)

def copySeg (d : List Char) (i : Nat) (src : List Char) : List Char :=
  d.take i ++ listCopy (d.drop i) src

/-- Go `RingBuffer.Write`: returns the new buffer, the reported byte
count `n = len(p)`, and the error (always `nil`, i.e. `none`).  The Go
locals `n := len(p)` and `remaining := r.size - r.pos` are inlined. -/
def RingBuffer.Write (r : RingBuffer) (p : List Char) : RingBuffer × Nat × Option String :=
  if p.length > r.size then
    ({ r with
        pos := 0, full := true,
        data := listCopy r.data (p.drop (p.length - r.size)) }, p.length, none)
  else if p.length ≤ r.size - r.pos then
    ({ r with data := copySeg r.data r.pos p, pos := r.pos + p.length }, p.length, none)
  else
    ({ r with
        data := listCopy (copySeg r.data r.pos (p.take (r.size - r.pos)))
          (p.drop (r.size - r.pos)),
        pos := p.length - (r.size - r.pos), full := true }, p.length, none)

/-- Go `RingBuffer.String`: when not full, `data[:pos]`; when full,
an output buffer of `size` zero bytes receives `copy(out, data[pos:])`
then `copy(out[size-pos:], data[:pos])`. -/
def RingBuffer.String (r : RingBuffer) : List Char :=
  if r.full = false then r.data.take r.pos
  else
    let out := List.replicate r.size '\x00'
    let out1 := listCopy out (r.data.drop r.pos)
    copySeg out1 (r.size - r.pos) (r.data.take r.pos)

/-- Fold a sequence of writes into a ring buffer (discarding the
returned counts, as `io.MultiWriter` does on success). -/
def writeAll (r : RingBuffer) (ws : List (List Char)) : RingBuffer :=
  ws.foldl (fun r p => (r.Write p).1) r

/-- The last `n` elements of `l` (all of `l` when `l.length ≤ n`). -/
def lastN (n : Nat) (l : List Char) : List Char :=
  l.drop (l.length - n)

/-! ## Structured History Store

Embeds `CommandEvent`, `SessionHistory`, `SessionHistory.AddEvent`,
`SessionHistory.GetLastEvents`.  The Go struct holds `strings.Builder`
accumulation buffers; a builder is modelled by the `List Char` it has
accumulated.  The mutex only serializes access and has no functional
content. -/

structure CommandEvent where
  Command : List Char
  Output : List Char
  ExitCode : Int
  Timestamp : Nat
deriving DecidableEq

structure SessionHistory where
  Events : List CommandEvent
  currentOutput : List Char
  currentInput : List Char
deriving DecidableEq

def NewSessionHistory : SessionHistory :=
  { Events := [], currentOutput := [], currentInput := [] }

def SessionHistory.AddEvent (h : SessionHistory) (cmd output : List Char) (exitCode : Int)
    (now : Nat) : SessionHistory :=
  { h with Events := h.Events ++
      [{ Command := cmd, Output := output, ExitCode := exitCode, Timestamp := now }] }

def SessionHistory.GetLastEvents (h : SessionHistory) (n : Nat) : List CommandEvent :=
  if h.Events.length = 0 then []
  else if n > h.Events.length then h.Events
  else h.Events.drop (h.Events.length - n)

/-! ## cleanTerminalOutput

Embeds the fixed pattern of `regexp.MustCompile` in the source (an ESC
byte followed by either one character of the class 0x40..0x5A,0x5C..0x5F,
or by a CSI body) and `ansi.ReplaceAllString(input, "")`.

The regex (RE2, leftmost-first) is deterministic: it matches ESC
followed either by one character with code in 0x40..0x5A or 0x5C..0x5F
(first alternative, tried first), or by a left bracket, a maximal run
of parameter bytes (0x30..0x3F), a maximal run of intermediate bytes
(0x20..0x2F), and one final byte (0x40..0x7E).  The three CSI
byte classes are pairwise disjoint, so the greedy runs never backtrack
and `dropWhile` is an exact model.  `ReplaceAllString` deletes every
non-overlapping leftmost match and keeps all other characters. -/

def isFeByte (c : Char) : Bool :=
  (0x40 ≤ c.toNat && c.toNat ≤ 0x5A) || (0x5C ≤ c.toNat && c.toNat ≤ 0x5F)

def isParamByte (c : Char) : Bool := 0x30 ≤ c.toNat && c.toNat ≤ 0x3F

def isInterByte (c : Char) : Bool := 0x20 ≤ c.toNat && c.toNat ≤ 0x2F

def isFinalByte (c : Char) : Bool := 0x40 ≤ c.toNat && c.toNat ≤ 0x7E

def matchCsi (l : List Char) : Option (List Char) :=
  match (l.dropWhile isParamByte).dropWhile isInterByte with
  | f :: rest => if isFinalByte f then some rest else none
  | [] => none

/-- Try the regex at the head of `l`; on a match return the remainder
after the matched escape sequence. -/
def matchEsc : List Char → Option (List Char)
  | c :: d :: rest =>
    if c = '\x1b' then
      if isFeByte d then some rest
      else if d = '[' then matchCsi rest
      else none
    else none
  | _ => none

/-- Fuelled scanner for `ReplaceAllString pattern ""`: at each position
delete a leftmost match, otherwise keep the character and advance.
`l.length` fuel always suffices (each step consumes at least one
character). -/
def cleanF : Nat → List Char → List Char
  | 0, l => l
  | fuel + 1, l =>
    match matchEsc l with
    | some r => cleanF fuel r
    | none =>
      match l with
      | [] => []
      | c :: rest => c :: cleanF fuel rest

def cleanTerminalOutput (l : List Char) : List Char := cleanF l.length l

/-! ## Go string helpers: TrimSpace and Sscanf -/

/-- `unicode.IsSpace` (the Unicode White_Space property), used by
`strings.TrimSpace`. -/
def goIsSpace (c : Char) : Bool :=
  c == ' ' || c == '\t' || c == '\n' || c == '\x0b' || c == '\x0c' || c == '\r' ||
  c == '\x85' || c == '\xa0' || c == '\u1680' ||
  (decide ('\u2000' ≤ c) && decide (c ≤ '\u200a')) ||
  c == '\u2028' || c == '\u2029' || c == '\u202f' || c == '\u205f' || c == '\u3000'

/-- `strings.TrimSpace`: drop leading and trailing white space. -/
def goTrimSpace (s : List Char) : List Char :=
  ((s.dropWhile goIsSpace).reverse.dropWhile goIsSpace).reverse

def digitsVal (ds : List Char) : Int :=
  ds.foldl (fun a c => a * 10 + ((c.toNat : Int) - 48)) 0

/-- The number-scanning tail of `fmt.Sscanf(s, "%d", &x)` after space
skipping and an accepted sign: `scanNumber` requires a non-empty run of
decimal digits (an "expected integer" error otherwise leaves `x` at 0),
and `strconv.ParseInt(tok, 10, 64)` reports an out-of-range error for
values outside int64 (Go `int` is 64-bit here), which also leaves `x`
at its initial value 0. -/
def sscanfDigits (sgn : Int) (t : List Char) : Int :=
  if t.takeWhile Char.isDigit = [] then 0
  else if sgn * digitsVal (t.takeWhile Char.isDigit) < -(2 ^ 63)
      ∨ 2 ^ 63 - 1 < sgn * digitsVal (t.takeWhile Char.isDigit) then 0
  else sgn * digitsVal (t.takeWhile Char.isDigit)

/-- `fmt.Sscanf(s, "%d", &x)` with `x` initialized to 0 and the error
ignored.  `skipSpace` (with `nlIsSpace = false`, as for `Sscanf`)
consumes leading runes of fmt's space table — the same set as
`unicode.IsSpace`, hence `goIsSpace` — except that a line feed is an
"unexpected newline" error (a carriage return directly before a line
feed is consumed, after which that line feed still errors, so skipping
stops at any `'\n'` and fails there); then an optional single sign is
accepted and the digits are scanned per `sscanfDigits`.  On every error
path `x` keeps its initial value 0. -/
def sscanfIntOr0 (s : List Char) : Int :=
  let t := s.dropWhile (fun c => goIsSpace c && !(c == '\n'))
  if t.head? = some '\n' then 0
  else
    match t with
    | '-' :: r => sscanfDigits (-1) r
    | '+' :: r => sscanfDigits 1 r
    | _ => sscanfDigits 1 t

/-! ## OSC 133 Control-Protocol Parser

Embeds `ParserState`, `SessionParser`, `SessionParser.ParseChunk`,
`SessionParser.handleTransition`, `SessionParser.appendToCurrentState`.
The separator `OSC_START = "\x1b]133;"` and terminator
`OSC_END = "\x07"` are as in the source.  `strings.Split(s, sep)` is
modelled by `oscSplit` (split around every non-overlapping leftmost
occurrence of the separator). -/

inductive ParserState where
  | StateNone
  | StatePrompt
  | StateInput
  | StateOutput
deriving DecidableEq

structure SessionParser where
  history : SessionHistory
  state : ParserState
deriving DecidableEq

def NewSessionParser : SessionParser :=
  { history := NewSessionHistory, state := .StateNone }

def oscStart : List Char := "\x1b]133;".toList

/-- Split off the part of `l` before the first occurrence of
`oscStart`, together with the part after it. -/
def splitFirst : List Char → Option (List Char × List Char)
  | [] => none
  | c :: rest =>
    if oscStart.isPrefixOf (c :: rest) then some ([], (c :: rest).drop 6)
    else (splitFirst rest).map (fun q => (c :: q.1, q.2))

/-- Fuelled `strings.Split(·, "\x1b]133;")`; fuel `l.length + 1` always
suffices since each separator occurrence consumes six characters. -/
def oscSplitF : Nat → List Char → List (List Char)
  | 0, l => [l]
  | fuel + 1, l =>
    match splitFirst l with
    | none => [l]
    | some (b, a) => b :: oscSplitF fuel a

def oscSplit (l : List Char) : List (List Char) := oscSplitF (l.length + 1) l

def SessionParser.appendToCurrentState (p : SessionParser) (s : List Char) : SessionParser :=
  match p.state with
  | .StateOutput => { p with history.currentOutput := p.history.currentOutput ++ s }
  | .StateInput => { p with history.currentInput := p.history.currentInput ++ s }
  | _ => p

/-- The exit code extracted from a `D` marker payload:
`parts := strings.Split(code, ";")`, default `0`, then
`fmt.Sscanf(parts[1], "%d", &exitCode)` when `len(parts) > 1`. -/
def dExitCode (code : List Char) : Int :=
  match code.splitOn ';' with
  | _ :: arg :: _ => sscanfIntOr0 arg
  | _ => 0

def SessionParser.handleTransition (p : SessionParser) (now : Nat) (code : List Char) :
    SessionParser :=
  if code = ['A'] then { p with state := .StatePrompt }
  else if code = ['C'] then
    { p with state := .StateOutput, history.currentOutput := [] }
  else if ['D'].isPrefixOf code then
    let exitCode := dExitCode code
    let cmd := goTrimSpace p.history.currentInput
    let out := cleanTerminalOutput p.history.currentOutput
    let events :=
      if cmd ≠ [] ∨ out ≠ [] then
        (SessionHistory.AddEvent p.history cmd out exitCode now).Events
      else p.history.Events
    { p with
      state := .StateNone,
      history := { Events := events, currentOutput := [], currentInput := [] } }
  else if code = ['B'] then
    { p with state := .StateInput, history.currentInput := [] }
  else p

/-- One iteration of the `for _, part := range parts[1:]` loop body of
`ParseChunk`: look for the BEL terminator; if absent re-inject
`"\x1b]133;" + part` as literal content, else apply the transition and
route the remainder to the new state's buffer. -/
def SessionParser.processPart (now : Nat) (p : SessionParser) (part : List Char) :
    SessionParser :=
  match part.findIdx? (· = '\x07') with
  | none => p.appendToCurrentState (oscStart ++ part)
  | some endIdx =>
    (p.handleTransition now (part.take endIdx)).appendToCurrentState (part.drop (endIdx + 1))

def SessionParser.ParseChunk (p : SessionParser) (now : Nat) (chunk : List Char) :
    SessionParser :=
  match oscSplit chunk with
  | [] => p
  | first :: rest => rest.foldl (SessionParser.processPart now) (p.appendToCurrentState first)

def feedChunks (p : SessionParser) (chunks : List (List Char)) : SessionParser :=
  chunks.foldl (fun q c => q.ParseChunk 0 c) p

/-! ## Input Interceptor

Embeds the byte-at-a-time input loop of `runSession` (the goroutine
reading `os.Stdin`).  The logical line buffer `inputBuf[:inputIdx]`
(1024-byte array plus index) is modelled by the `List Char` of its
first `inputIdx` bytes.  The externally visible effect of one processed
byte is either forwarding that byte to the PTY or triggering the
LLM interception on the accumulated line (whose further effects —
writing Ctrl+U and a carriage return to the PTY and running the LLM
call — are I/O outside this model). -/

inductive InputAction where
  | forward (b : Char)
  | intercept (line : List Char)
deriving DecidableEq

/-- `strings.HasPrefix(line, "??") || strings.HasPrefix(line, " ??")`. -/
def isTrigger (line : List Char) : Bool :=
  "??".toList.isPrefixOf line || " ??".toList.isPrefixOf line

/-- One iteration of the input-interception loop for byte `b` with
current line buffer `buf`; returns the new buffer and the action. -/
def interceptStep (buf : List Char) (b : Char) : List Char × InputAction :=
  if b = '\r' ∨ b = '\n' then
    if isTrigger buf then ([], .intercept buf) else ([], .forward b)
  else if b = '\x7f' ∨ b = '\x08' then
    (buf.dropLast, .forward b)
  else if b = '\x03' then
    ([], .forward b)
  else if b = '\x04' then
    (buf, .forward b)
  else
    (if buf.length < 1024 then buf ++ [b] else buf, .forward b)

def runBytes (bs : List Char) : List Char :=
  bs.foldl (fun buf b => (interceptStep buf b).1) []

/-- State invariant of the ring buffer relative to the stream `W` of
all bytes written so far. -/
def RBinv (sz : Nat) (r : RingBuffer) (W : List Char) : Prop :=
  r.size = sz ∧ r.data.length = sz ∧ r.pos ≤ sz ∧
  (r.full = false → r.pos = W.length ∧ r.data.take r.pos = W) ∧
  (r.full = true → sz ≤ W.length ∧
    r.data.drop r.pos ++ r.data.take r.pos = W.drop (W.length - sz))

theorem listCopy_length (dst src : List Char) : (listCopy dst src).length = dst.length := by
  simp [listCopy]
  omega

theorem listCopy_of_le {dst src : List Char} (h : src.length ≤ dst.length) :
    listCopy dst src = src ++ dst.drop src.length := by
  simp [listCopy, Nat.min_eq_left h, List.take_of_length_le, h]
theorem copySeg_of_fit {d : List Char} {i : Nat} {src : List Char}
    (hi : i ≤ d.length) (hs : src.length ≤ d.length - i) :
    copySeg d i src = (d.take i ++ src) ++ d.drop (i + src.length) := by
  unfold copySeg
  rw [listCopy_of_le (by rw [List.length_drop]; omega), List.drop_drop, List.append_assoc]

theorem listCopy_nil (dst : List Char) : listCopy dst [] = dst := by
  simp [listCopy]

/-- Under the reachable-state invariants, the full-buffer reconstruction
in `RingBuffer.String` is `data[pos:] ++ data[:pos]`. -/
theorem RingBuffer.String_full {r : RingBuffer} (hlen : r.data.length = r.size)
    (hpos : r.pos ≤ r.size) (hfull : r.full = true) :
    r.String = r.data.drop r.pos ++ r.data.take r.pos := by
  unfold RingBuffer.String
  rw [hfull]
  simp only [Bool.true_eq_false, if_false]
  have hdl : (r.data.drop r.pos).length = r.size - r.pos := by
    rw [List.length_drop, hlen]
  have h1 : listCopy (List.replicate r.size '\x00') (r.data.drop r.pos)
      = r.data.drop r.pos ++ List.replicate r.pos '\x00' := by
    rw [listCopy_of_le (by rw [hdl, List.length_replicate]; omega), hdl, List.drop_replicate]
    congr 1
    congr 1
    omega
  rw [h1]
  unfold copySeg
  rw [List.take_left' (by rw [hdl]), List.drop_left' (by rw [hdl])]
  have htl : (r.data.take r.pos).length = r.pos := by
    rw [List.length_take]
    omega
  rw [listCopy_of_le (by rw [htl, List.length_replicate]), htl, List.drop_replicate]
  simp

theorem RBinv_mk {sz : Nat} (d : List Char) (q : Nat) (fl : Bool) (W : List Char)
    (h1 : d.length = sz) (h2 : q ≤ sz)
    (h3 : fl = false → q = W.length ∧ d.take q = W)
    (h4 : fl = true → sz ≤ W.length ∧ d.drop q ++ d.take q = W.drop (W.length - sz)) :
    RBinv sz { data := d, size := sz, pos := q, full := fl } W :=
  ⟨rfl, h1, h2, h3, h4⟩

theorem RBinv_init (sz : Nat) : RBinv sz (NewRingBuffer sz) [] := by
  refine ⟨rfl, by simp [NewRingBuffer], by simp [NewRingBuffer], ?_, ?_⟩
  · intro _
    simp [NewRingBuffer]
  · intro h
    simp [NewRingBuffer] at h
theorem RBinv_write {sz : Nat} {r : RingBuffer} {W : List Char} (h : RBinv sz r W)
    (p : List Char) : RBinv sz (r.Write p).1 (W ++ p) := by
  obtain ⟨hsz, hlen, hpos, hnf, hf⟩ := h
  subst hsz
  unfold RingBuffer.Write
  by_cases h1 : p.length > r.size
  · -- oversized write: keep only the trailing `size` bytes
    rw [if_pos h1]
    have hdrop : (p.drop (p.length - r.size)).length = r.size := by
      rw [List.length_drop]; omega
    have hnil : r.data.drop r.size = [] := List.drop_of_length_le (by omega)
    have hdata : listCopy r.data (p.drop (p.length - r.size)) = p.drop (p.length - r.size) := by
      rw [listCopy_of_le (by rw [hdrop, hlen]), hdrop, hnil, List.append_nil]
    apply RBinv_mk
    · rw [hdata, hdrop]
    · omega
    · intro hc
      cases hc
    · intro _
      refine ⟨by rw [List.length_append]; omega, ?_⟩
      have hWnil : W.drop (W.length + p.length - r.size) = [] :=
        List.drop_of_length_le (by omega)
      rw [hdata, List.drop_zero, List.take_zero, List.append_nil, List.length_append,
        List.drop_append_eq_append_drop, hWnil,
        show W.length + p.length - r.size - W.length = p.length - r.size by omega,
        List.nil_append]
  · rw [if_neg h1]
    by_cases h2 : p.length ≤ r.size - r.pos
    · -- the write fits before the wrap point
      rw [if_pos h2]
      have hdata : copySeg r.data r.pos p
          = (r.data.take r.pos ++ p) ++ r.data.drop (r.pos + p.length) :=
        copySeg_of_fit (by omega) (by omega)
      have htkq : (r.data.take r.pos).length = r.pos := by
        rw [List.length_take]; omega
      have hqp : (r.data.take r.pos ++ p).length = r.pos + p.length := by
        rw [List.length_append, htkq]
      apply RBinv_mk
      · rw [hdata, List.length_append, hqp, List.length_drop]
        omega
      · omega
      · intro hfl
        obtain ⟨hq, htk⟩ := hnf hfl
        refine ⟨by rw [List.length_append, hq], ?_⟩
        rw [hdata, List.take_left' hqp, htk]
      · intro hfl
        obtain ⟨hW, hrec⟩ := hf hfl
        refine ⟨by rw [List.length_append]; omega, ?_⟩
        have hnil2 : (r.data.drop r.pos).drop p.length
            ++ (r.data.take r.pos).drop (p.length - (r.data.drop r.pos).length)
            = (r.data.drop r.pos).drop p.length ++ r.data.take r.pos := by
          rw [List.length_drop, show p.length - (r.data.length - r.pos) = 0 by omega,
            List.drop_zero]
        rw [hdata, List.take_left' hqp, List.drop_left' hqp, List.length_append]
        conv_rhs =>
          rw [List.drop_append_eq_append_drop,
            show W.length + p.length - r.size - W.length = 0 by omega, List.drop_zero,
            show W.length + p.length - r.size = (W.length - r.size) + p.length by omega,
            ← List.drop_drop, ← hrec, List.drop_append_eq_append_drop, hnil2,
            List.drop_drop]
        simp [List.append_assoc]
    · -- the write wraps around the end of the buffer
      rw [if_neg h2]
      have htkrem : (p.take (r.size - r.pos)).length = r.size - r.pos := by
        rw [List.length_take]; omega
      have hnil : r.data.drop r.size = [] := List.drop_of_length_le (by omega)
      have hinner : copySeg r.data r.pos (p.take (r.size - r.pos))
          = r.data.take r.pos ++ p.take (r.size - r.pos) := by
        rw [copySeg_of_fit (by omega) (by omega), htkrem,
          show r.pos + (r.size - r.pos) = r.size by omega, hnil, List.append_nil]
      have htkq : (r.data.take r.pos).length = r.pos := by
        rw [List.length_take]; omega
      have hinlen : (r.data.take r.pos ++ p.take (r.size - r.pos)).length = r.size := by
        rw [List.length_append, htkq, htkrem]; omega
      have hdlen : (p.drop (r.size - r.pos)).length = p.length - (r.size - r.pos) :=
        List.length_drop _ _
      have hdata : listCopy (copySeg r.data r.pos (p.take (r.size - r.pos)))
            (p.drop (r.size - r.pos))
          = p.drop (r.size - r.pos)
            ++ (r.data.take r.pos ++ p.take (r.size - r.pos)).drop
                (p.length - (r.size - r.pos)) := by
        rw [hinner, listCopy_of_le (by rw [hdlen, hinlen]; omega), hdlen]
      apply RBinv_mk
      · rw [hdata, List.length_append, hdlen, List.length_drop, hinlen]
        omega
      · omega
      · intro hc
        cases hc
      · intro _
        have hWlen : r.size ≤ (W ++ p).length := by
          rw [List.length_append]
          rcases Bool.eq_false_or_eq_true r.full with hfl | hfl
          · obtain ⟨hW, _⟩ := hf hfl
            omega
          · obtain ⟨hq, _⟩ := hnf hfl
            omega
        refine ⟨hWlen, ?_⟩
        rw [hdata, List.drop_left' hdlen, List.take_left' hdlen,
          List.drop_append_eq_append_drop, htkq,
          show p.length - (r.size - r.pos) - r.pos = 0 by omega, List.drop_zero,
          List.append_assoc, List.take_append_drop, List.length_append,
          List.drop_append_eq_append_drop,
          show W.length + p.length - r.size - W.length = 0 by omega, List.drop_zero]
        congr 1
        rcases Bool.eq_false_or_eq_true r.full with hfl | hfl
        case _ =>
          obtain ⟨hW, hrec⟩ := hf hfl
          have hnil2 : (r.data.drop r.pos).drop p.length = [] :=
            List.drop_of_length_le (by rw [List.length_drop]; omega)
          rw [show W.length + p.length - r.size = (W.length - r.size) + p.length by omega,
            ← List.drop_drop, ← hrec, List.drop_append_eq_append_drop, hnil2,
            List.nil_append, List.length_drop,
            show p.length - (r.data.length - r.pos) = p.length - (r.size - r.pos) by omega]
        case _ =>
          obtain ⟨hq, htk⟩ := hnf hfl
          rw [htk]
          congr 1
          omega

theorem RBinv_writeAll {sz : Nat} (ws : List (List Char)) {r : RingBuffer} {W : List Char}
    (h : RBinv sz r W) : RBinv sz (writeAll r ws) (W ++ ws.flatten) := by
  induction ws generalizing r W with
  | nil => simpa [writeAll] using h
  | cons p ws ih =>
    have h2 := ih (RBinv_write h p)
    rw [writeAll, List.foldl_cons, ← writeAll] at *
    simpa [List.append_assoc] using h2

theorem RBinv_String {sz : Nat} {r : RingBuffer} {W : List Char} (h : RBinv sz r W) :
    r.String = lastN sz W := by
  obtain ⟨hsz, hlen, hpos, hnf, hf⟩ := h
  subst hsz
  rcases Bool.eq_false_or_eq_true r.full with hfl | hfl
  · obtain ⟨hW, hrec⟩ := hf hfl
    rw [RingBuffer.String_full hlen hpos hfl, hrec]
    rfl
  · obtain ⟨hq, htk⟩ := hnf hfl
    unfold RingBuffer.String lastN
    rw [hfl, if_pos rfl, htk, show W.length - r.size = 0 by omega, List.drop_zero]

theorem RingBuffer.Write_nil (r : RingBuffer) : r.Write [] = (r, 0, none) := by
  unfold RingBuffer.Write
  rw [if_neg (by simp), if_pos (by simp)]
  simp [copySeg, listCopy_nil, List.take_append_drop]

/-- C2: after any sequence of writes, `String()` returns exactly the
last `size` bytes of the concatenated write stream, in original order
(all of it when fewer than `size` bytes were written); concrete cases:
capacity 5 with writes "123","456" gives "23456", and a single
oversized write "1234567890" gives "67890". -/
theorem C2_ringbuffer_order :
    (∀ (sz : Nat) (ws : List (List Char)),
      (writeAll (NewRingBuffer sz) ws).String = lastN sz ws.flatten)
  ∧ (∀ (sz : Nat) (ws : List (List Char)), ws.flatten.length ≤ sz →
      (writeAll (NewRingBuffer sz) ws).String = ws.flatten)
  ∧ (writeAll (NewRingBuffer 5) ["123".toList, "456".toList]).String = "23456".toList
  ∧ (writeAll (NewRingBuffer 5) ["1234567890".toList]).String = "67890".toList := by
  have main : ∀ (sz : Nat) (ws : List (List Char)),
      (writeAll (NewRingBuffer sz) ws).String = lastN sz ws.flatten := by
    intro sz ws
    have h := RBinv_writeAll ws (RBinv_init sz)
    rw [List.nil_append] at h
    exact RBinv_String h
  refine ⟨main, ?_, by decide, by decide⟩
  intro sz ws h
  rw [main, lastN, Nat.sub_eq_zero_of_le h, List.drop_zero]

theorem C2_ringbuffer_order_witness :
    ["ab".toList, "c".toList].flatten.length ≤ 4
  ∧ (writeAll (NewRingBuffer 4) ["ab".toList, "c".toList]).String
      = ["ab".toList, "c".toList].flatten :=
  ⟨by decide, C2_ringbuffer_order.2.1 4 ["ab".toList, "c".toList] (by decide)⟩

/-- C6 (amended): a zero-length `Write` is a complete no-op and every
`Write` succeeds, returning the original byte count and no error; but a
`Write` of exactly `size` bytes into a fresh buffer fills `data` (and
`String()` returns the whole write) while leaving `full = false` and
the cursor at `size` — it does not mark the buffer full with cursor 0
(only a write strictly longer than `size` does that). -/
theorem C6_ringbuffer_edge_cases :
    (∀ r : RingBuffer, r.Write [] = (r, 0, none))
  ∧ (∀ (r : RingBuffer) (p : List Char),
      (r.Write p).2.1 = p.length ∧ (r.Write p).2.2 = none)
  ∧ (∀ (sz : Nat) (p : List Char), p.length = sz →
      ((NewRingBuffer sz).Write p).1.data = p ∧ ((NewRingBuffer sz).Write p).1.pos = sz ∧
      ((NewRingBuffer sz).Write p).1.full = false ∧
      ((NewRingBuffer sz).Write p).1.String = p) := by
  refine ⟨RingBuffer.Write_nil, ?_, ?_⟩
  · intro r p
    unfold RingBuffer.Write
    split_ifs <;> simp
  · intro sz p hlen
    subst hlen
    have hbr : ((NewRingBuffer p.length).Write p).1
        = { data := copySeg (NewRingBuffer p.length).data 0 p, size := p.length,
            pos := 0 + p.length, full := false } := by
      unfold RingBuffer.Write
      rw [if_neg (by simp [NewRingBuffer]), if_pos (by simp [NewRingBuffer])]
      rfl
    have hdata : copySeg (NewRingBuffer p.length).data 0 p = p := by
      unfold copySeg NewRingBuffer
      rw [List.take_zero, List.drop_zero, List.nil_append,
        listCopy_of_le (by rw [List.length_replicate]), List.drop_replicate]
      simp
    rw [hbr, hdata]
    refine ⟨rfl, by simp, rfl, ?_⟩
    unfold RingBuffer.String
    simp

theorem C6_ringbuffer_edge_cases_witness :
    ("abc".toList.length = 3)
  ∧ ((NewRingBuffer 3).Write "abc".toList).1.data = "abc".toList
  ∧ ((NewRingBuffer 3).Write "abc".toList).1.pos = 3
  ∧ ((NewRingBuffer 3).Write "abc".toList).1.full = false
  ∧ ((NewRingBuffer 3).Write "abc".toList).1.String = "abc".toList := by
  have h := C6_ringbuffer_edge_cases.2.2 3 "abc".toList (by decide)
  exact ⟨by decide, h.1, h.2.1, h.2.2.1, h.2.2.2⟩

/-- C6 counterexample to the claim as stated: writing exactly `size`
bytes (capacity 5, write "12345") leaves `full = false` and the cursor
at 5, not `full = true` with cursor 0. -/
theorem C6_ringbuffer_exact_fill_counterexample :
    ((NewRingBuffer 5).Write "12345".toList).1.full = false
  ∧ ((NewRingBuffer 5).Write "12345".toList).1.pos = 5 := by
  decide

/-- C8: the event sequence is append-only — `AddEvent` appends exactly
one record at the end, leaving all existing records in place — and
`GetLastEvents k` returns the `k` most recent events in original
(oldest-first) order for `k ≤ N`, nothing on an empty store, and all
`N` events when `k > N`. -/
theorem C8_history_ordering :
    (∀ (h : SessionHistory) (cmd out : List Char) (ec : Int) (now : Nat),
      (h.AddEvent cmd out ec now).Events
        = h.Events ++ [{ Command := cmd, Output := out, ExitCode := ec, Timestamp := now }]
      ∧ (h.AddEvent cmd out ec now).Events.take h.Events.length = h.Events)
  ∧ (∀ k : Nat, NewSessionHistory.GetLastEvents k = [])
  ∧ (∀ (h : SessionHistory) (k : Nat), k ≤ h.Events.length →
      h.GetLastEvents k = h.Events.drop (h.Events.length - k)
      ∧ (h.GetLastEvents k).length = k)
  ∧ (∀ (h : SessionHistory) (k : Nat), h.Events.length < k →
      h.GetLastEvents k = h.Events) := by
  refine ⟨?_, ?_, ?_, ?_⟩
  · intro h cmd out ec now
    refine ⟨rfl, ?_⟩
    unfold SessionHistory.AddEvent
    exact List.take_left _ _
  · intro k
    simp [SessionHistory.GetLastEvents, NewSessionHistory]
  · intro h k hk
    unfold SessionHistory.GetLastEvents
    by_cases hz : h.Events.length = 0
    · have hnil : h.Events = [] := List.length_eq_zero.mp hz
      rw [if_pos hz, hnil]
      simp only [List.drop_nil, List.length_nil]
      exact ⟨trivial, by omega⟩
    · rw [if_neg hz, if_neg (by omega)]
      refine ⟨rfl, ?_⟩
      rw [List.length_drop]
      omega
  · intro h k hk
    unfold SessionHistory.GetLastEvents
    by_cases hz : h.Events.length = 0
    · rw [if_pos hz]
      exact (List.length_eq_zero.mp hz).symm
    · rw [if_neg hz, if_pos (by omega)]

theorem C8_history_ordering_witness :
    (1 ≤ ({ Events := [{ Command := "a".toList, Output := [], ExitCode := 0, Timestamp := 0 },
                       { Command := "b".toList, Output := [], ExitCode := 1, Timestamp := 1 }],
            currentOutput := [], currentInput := [] } : SessionHistory).Events.length)
  ∧ ({ Events := [{ Command := "a".toList, Output := [], ExitCode := 0, Timestamp := 0 },
                  { Command := "b".toList, Output := [], ExitCode := 1, Timestamp := 1 }],
       currentOutput := [], currentInput := [] } : SessionHistory).GetLastEvents 1
      = [{ Command := "b".toList, Output := [], ExitCode := 1, Timestamp := 1 }] := by
  refine ⟨by decide, ?_⟩
  have h := C8_history_ordering.2.2.1
    { Events := [{ Command := "a".toList, Output := [], ExitCode := 0, Timestamp := 0 },
                 { Command := "b".toList, Output := [], ExitCode := 1, Timestamp := 1 }],
      currentOutput := [], currentInput := [] } 1 (by decide)
  rw [h.1]
  decide

theorem dropWhile_append_of_forall {p : Char → Bool} {l1 : List Char} (l2 : List Char)
    (h : ∀ c ∈ l1, p c = true) : (l1 ++ l2).dropWhile p = l2.dropWhile p := by
  induction l1 with
  | nil => rfl
  | cons a l1 ih =>
    rw [List.cons_append, List.dropWhile_cons, if_pos (h a (List.mem_cons_self a l1))]
    exact ih (fun c hc => h c (List.mem_cons_of_mem a hc))

theorem dropWhile_length_le (p : Char → Bool) (l : List Char) :
    (l.dropWhile p).length ≤ l.length := by
  induction l with
  | nil => simp
  | cons a l ih =>
    rw [List.dropWhile_cons]
    split_ifs
    · exact le_trans ih (by simp)
    · simp

theorem isParamByte_of_isInterByte {c : Char} (h : isInterByte c = true) :
    isParamByte c = false := by
  simp only [isInterByte, Bool.and_eq_true, decide_eq_true_eq] at h
  simp only [isParamByte, Bool.and_eq_false_iff, decide_eq_false_iff_not]
  omega

theorem isParamByte_of_isFinalByte {c : Char} (h : isFinalByte c = true) :
    isParamByte c = false := by
  simp only [isFinalByte, Bool.and_eq_true, decide_eq_true_eq] at h
  simp only [isParamByte, Bool.and_eq_false_iff, decide_eq_false_iff_not]
  omega

theorem isInterByte_of_isFinalByte {c : Char} (h : isFinalByte c = true) :
    isInterByte c = false := by
  simp only [isFinalByte, Bool.and_eq_true, decide_eq_true_eq] at h
  simp only [isInterByte, Bool.and_eq_false_iff, decide_eq_false_iff_not]
  omega

theorem matchCsi_csi {ps is rest : List Char} {f : Char}
    (hps : ∀ c ∈ ps, isParamByte c = true) (his : ∀ c ∈ is, isInterByte c = true)
    (hf : isFinalByte f = true) : matchCsi (ps ++ is ++ f :: rest) = some rest := by
  have h1 : (ps ++ is ++ f :: rest).dropWhile isParamByte = is ++ f :: rest := by
    rw [List.append_assoc, dropWhile_append_of_forall _ hps]
    cases is with
    | nil =>
      rw [List.nil_append, List.dropWhile_cons,
        if_neg (by rw [isParamByte_of_isFinalByte hf]; simp)]
    | cons c is' =>
      rw [List.cons_append, List.dropWhile_cons,
        if_neg (by rw [isParamByte_of_isInterByte (his c (List.mem_cons_self c is'))]; simp)]
  have h2 : (is ++ f :: rest).dropWhile isInterByte = f :: rest := by
    rw [dropWhile_append_of_forall _ his, List.dropWhile_cons,
      if_neg (by rw [isInterByte_of_isFinalByte hf]; simp)]
  unfold matchCsi
  rw [h1, h2]
  simp [hf]

theorem matchCsi_length {l r : List Char} (h : matchCsi l = some r) : r.length < l.length := by
  unfold matchCsi at h
  split at h
  next f rs heq =>
    split_ifs at h
    cases h
    have h1 : (f :: r).length ≤ l.length := by
      rw [← heq]
      exact le_trans (dropWhile_length_le _ _) (dropWhile_length_le _ _)
    simp only [List.length_cons] at h1
    omega
  next heq => cases h

theorem matchEsc_length {l r : List Char} (h : matchEsc l = some r) : r.length + 2 ≤ l.length := by
  match l with
  | [] => cases h
  | [c] => cases h
  | c :: d :: rest =>
    simp only [matchEsc] at h
    split_ifs at h with hc hd he
    · cases h
      simp
    · have := matchCsi_length h
      simp only [List.length_cons]
      omega

theorem cleanF_stable : ∀ (f1 f2 : Nat) (l : List Char),
    l.length ≤ f1 → l.length ≤ f2 → cleanF f1 l = cleanF f2 l := by
  intro f1
  induction f1 with
  | zero =>
    intro f2 l h1 h2
    have hl : l = [] := by
      cases l with
      | nil => rfl
      | cons c r => simp at h1
    subst hl
    cases f2 with
    | zero => rfl
    | succ g => rfl
  | succ g ih =>
    intro f2 l h1 h2
    cases f2 with
    | zero =>
      have hl : l = [] := by
        cases l with
        | nil => rfl
        | cons c r => simp at h2
      subst hl
      rfl
    | succ k =>
      cases hm : matchEsc l with
      | some r =>
        have hlen := matchEsc_length hm
        simp only [cleanF, hm]
        exact ih k r (by omega) (by omega)
      | none =>
        cases l with
        | nil => rfl
        | cons c rest =>
          simp only [cleanF, hm, List.length_cons] at h1 h2 ⊢
          rw [ih k rest (by omega) (by omega)]

theorem clean_of_matchEsc {l r : List Char} (hm : matchEsc l = some r) :
    cleanTerminalOutput l = cleanTerminalOutput r := by
  unfold cleanTerminalOutput
  have hlen := matchEsc_length hm
  obtain ⟨k, hk⟩ : ∃ k, l.length = k + 1 := ⟨l.length - 1, by omega⟩
  rw [hk]
  simp only [cleanF, hm]
  exact cleanF_stable k r.length r (by omega) (le_refl _)

theorem clean_no_esc : ∀ (fuel : Nat) (l : List Char), l.length ≤ fuel →
    (∀ c ∈ l, c ≠ '\x1b') → cleanF fuel l = l := by
  intro fuel
  induction fuel with
  | zero => intro l h1 h2; rfl
  | succ g ih =>
    intro l h1 h2
    have hm : matchEsc l = none := by
      cases l with
      | nil => rfl
      | cons c rest =>
        cases rest with
        | nil => rfl
        | cons d r =>
          simp only [matchEsc]
          rw [if_neg (h2 c (List.mem_cons_self c (d :: r)))]
    simp only [cleanF, hm]
    cases l with
    | nil => rfl
    | cons c rest =>
      show c :: cleanF g rest = c :: rest
      rw [ih rest (by simp only [List.length_cons] at h1; omega)
        (fun x hx => h2 x (List.mem_cons_of_mem c hx))]

theorem matchEsc_csi {ps is rest : List Char} {f : Char}
    (hps : ∀ c ∈ ps, isParamByte c = true) (his : ∀ c ∈ is, isInterByte c = true)
    (hf : isFinalByte f = true) :
    matchEsc ('\x1b' :: '[' :: (ps ++ is ++ f :: rest)) = some rest := by
  have h1 : isFeByte '[' = false := by decide
  simp only [matchEsc, h1, if_pos rfl, Bool.false_eq_true, if_false, if_true]
  exact matchCsi_csi hps his hf

theorem matchEsc_fe {rest : List Char} {c : Char} (hc : isFeByte c = true) :
    matchEsc ('\x1b' :: c :: rest) = some rest := by
  simp only [matchEsc, hc, if_pos rfl, if_true]

/-- C7: `cleanTerminalOutput` deletes every escape sequence matched by
the fixed ANSI/VT pattern — each two-character ESC+Fe sequence and each
ESC `[` params intermediates final CSI sequence — and leaves text with
no ESC byte unchanged; concretely, the red-colored "Error:" example
cleans to plain text. -/
theorem C7_ansi_stripping :
    cleanTerminalOutput "\x1b[31mError:\x1b[0m File not found".toList
      = "Error: File not found".toList
  ∧ (∀ l : List Char, (∀ c ∈ l, c ≠ '\x1b') → cleanTerminalOutput l = l)
  ∧ (∀ (ps is rest : List Char) (f : Char),
      (∀ c ∈ ps, isParamByte c = true) → (∀ c ∈ is, isInterByte c = true) →
      isFinalByte f = true →
      cleanTerminalOutput ('\x1b' :: '[' :: (ps ++ is ++ f :: rest))
        = cleanTerminalOutput rest)
  ∧ (∀ (c : Char) (rest : List Char), isFeByte c = true →
      cleanTerminalOutput ('\x1b' :: c :: rest) = cleanTerminalOutput rest) := by
  refine ⟨by decide, ?_, ?_, ?_⟩
  · intro l h
    exact clean_no_esc l.length l (le_refl _) h
  · intro ps is rest f hps his hf
    exact clean_of_matchEsc (matchEsc_csi hps his hf)
  · intro c rest hc
    exact clean_of_matchEsc (matchEsc_fe hc)

theorem C7_ansi_stripping_witness :
    ((∀ c ∈ "plain text".toList, c ≠ '\x1b')
      ∧ cleanTerminalOutput "plain text".toList = "plain text".toList)
  ∧ (isFinalByte 'm' = true
      ∧ cleanTerminalOutput ('\x1b' :: '[' :: ("31".toList ++ [] ++ 'm' :: "ok".toList))
          = cleanTerminalOutput "ok".toList) :=
  ⟨⟨by decide, C7_ansi_stripping.2.1 "plain text".toList (by decide)⟩,
   ⟨by decide, C7_ansi_stripping.2.2.1 "31".toList [] "ok".toList 'm'
      (by decide) (by decide) (by decide)⟩⟩

/-- C1: feeding, in order, the `A` marker, literal prompt text, `B`,
"echo hello", `C`, "hello\r\n" and `D;0` (markers introduced by
ESC ]133; and terminated by BEL) appends exactly one CommandEvent with
command "echo hello", output "hello\r\n" and exit code 0; the same
lifecycle ending in `D;1` gives exit code 1. -/
theorem C1_protocol_lifecycle :
    (feedChunks NewSessionParser
      ["\x1b]133;A\x07".toList, "myprompt$ ".toList, "\x1b]133;B\x07".toList,
       "echo hello".toList, "\x1b]133;C\x07".toList, "hello\r\n".toList,
       "\x1b]133;D;0\x07".toList]).history.Events
      = [{ Command := "echo hello".toList, Output := "hello\r\n".toList,
           ExitCode := 0, Timestamp := 0 }]
  ∧ (feedChunks NewSessionParser
      ["\x1b]133;A\x07".toList, "myprompt$ ".toList, "\x1b]133;B\x07".toList,
       "echo hello".toList, "\x1b]133;C\x07".toList, "hello\r\n".toList,
       "\x1b]133;D;1\x07".toList]).history.Events
      = [{ Command := "echo hello".toList, Output := "hello\r\n".toList,
           ExitCode := 1, Timestamp := 0 }] := by
  decide

theorem appendToCurrentState_Events (p : SessionParser) (s : List Char) :
    (p.appendToCurrentState s).history.Events = p.history.Events := by
  rcases p with ⟨h, st⟩
  cases st <;> rfl

theorem appendToCurrentState_state (p : SessionParser) (s : List Char) :
    (p.appendToCurrentState s).state = p.state := by
  rcases p with ⟨h, st⟩
  cases st <;> rfl

theorem appendToCurrentState_of_inactive {p : SessionParser}
    (h : p.state = .StatePrompt ∨ p.state = .StateNone) (s : List Char) :
    p.appendToCurrentState s = p := by
  rcases p with ⟨hist, st⟩
  rcases h with h | h <;> simp only at h <;> subst h <;> rfl

/-- C3 (amended): a terminated `D` marker parses the trailing integer
via `Sscanf %d` semantics — default 0 when absent or unparsable,
including an out-of-int64-range value, while scanner whitespace such as
a tab before the digits is skipped — and appends exactly one CommandEvent
built from the trimmed input, the cleaned output, the exit code and the
capture time if and only if that trimmed input or cleaned output is
non-empty, clears both accumulation buffers and returns the state to
`None`; no other transition and no literal byte routing ever appends an
event, so partial lifecycles produce no record. -/
theorem C3_command_finalization :
    (∀ (p : SessionParser) (now : Nat) (code : List Char),
      ['D'].isPrefixOf code = true →
      p.handleTransition now code
        = { history :=
              { Events :=
                  if goTrimSpace p.history.currentInput ≠ []
                      ∨ cleanTerminalOutput p.history.currentOutput ≠ [] then
                    p.history.Events
                      ++ [{ Command := goTrimSpace p.history.currentInput,
                            Output := cleanTerminalOutput p.history.currentOutput,
                            ExitCode := dExitCode code, Timestamp := now }]
                  else p.history.Events,
                currentOutput := [], currentInput := [] },
            state := .StateNone })
  ∧ (∀ (p : SessionParser) (now : Nat) (code : List Char),
      ['D'].isPrefixOf code = false →
      (p.handleTransition now code).history.Events = p.history.Events)
  ∧ (∀ (p : SessionParser) (s : List Char),
      (p.appendToCurrentState s).history.Events = p.history.Events)
  ∧ dExitCode "D".toList = 0 ∧ dExitCode "D;".toList = 0
  ∧ dExitCode "D;x".toList = 0 ∧ dExitCode "D;7".toList = 7
  ∧ dExitCode "D;\t7".toList = 7 ∧ dExitCode "D;-5".toList = -5
  ∧ dExitCode "D;9999999999999999999".toList = 0 := by
  refine ⟨?_, ?_, appendToCurrentState_Events, by decide, by decide, by decide, by decide,
    by decide, by decide, by decide⟩
  · intro p now code h
    obtain ⟨t, ht⟩ : ∃ t, code = 'D' :: t := by
      obtain ⟨t, ht⟩ := List.isPrefixOf_iff_prefix.mp h
      exact ⟨t, ht.symm⟩
    subst ht
    unfold SessionParser.handleTransition
    rw [if_neg (by simp), if_neg (by simp), if_pos h]
    rfl
  · intro p now code h
    unfold SessionParser.handleTransition
    split_ifs with h1 h2 h3 h4
    · rfl
    · rfl
    · rw [h] at h3
      cases h3
    · rfl
    · rfl

theorem C3_command_finalization_witness :
    ['D'].isPrefixOf "D;2".toList = true
  ∧ (SessionParser.handleTransition
      { history := { Events := [], currentOutput := "hi".toList,
                     currentInput := " ls ".toList },
        state := .StateOutput } 5 "D;2".toList).history.Events
      = [{ Command := "ls".toList, Output := "hi".toList, ExitCode := 2, Timestamp := 5 }] := by
  refine ⟨by decide, ?_⟩
  rw [C3_command_finalization.1
    { history := { Events := [], currentOutput := "hi".toList,
                   currentInput := " ls ".toList },
      state := .StateOutput } 5 "D;2".toList (by decide)]
  decide

/-- C3 counterexample to the claim as stated: after `B` the raw
`currentInput` buffer holds " " (non-empty), yet the `D;0` transition
appends no CommandEvent, because the code tests the trimmed input and
cleaned output rather than the raw buffers. -/
theorem C3_command_finalization_counterexample :
    (feedChunks NewSessionParser
      ["\x1b]133;B\x07".toList, " ".toList]).history.currentInput = " ".toList
  ∧ (" ".toList ≠ ([] : List Char))
  ∧ (feedChunks NewSessionParser
      ["\x1b]133;B\x07".toList, " ".toList, "\x1b]133;D;0\x07".toList]).history.Events
      = [] := by
  decide

theorem splitFirst_some : ∀ {l pre tail : List Char},
    splitFirst l = some (pre, tail) →
    l = pre ++ oscStart ++ tail ∧ tail.length + 6 ≤ l.length := by
  intro l
  induction l with
  | nil => intro pre tail h; cases h
  | cons c rest ih =>
    intro pre tail h
    unfold splitFirst at h
    split_ifs at h with hp
    · injection h with h'
      injection h' with h1 h2
      subst h1
      obtain ⟨t, ht⟩ := List.isPrefixOf_iff_prefix.mp hp
      have hlen : oscStart.length = 6 := by decide
      have hdrop : (c :: rest).drop 6 = t := by
        rw [← ht, ← hlen, List.drop_left]
      rw [← h2, hdrop, List.nil_append]
      constructor
      · exact ht.symm
      · rw [← ht, List.length_append, hlen]
        omega
    · cases hsf : splitFirst rest with
      | none => rw [hsf] at h; cases h
      | some q =>
        rw [hsf] at h
        obtain ⟨b', a'⟩ := q
        simp only [Option.map_some'] at h
        injection h with h'
        injection h' with h1 h2
        obtain ⟨hl, hlen⟩ := ih hsf
        subst h2
        constructor
        · rw [← h1, List.cons_append, List.cons_append, ← hl]
        · simp only [List.length_cons]
          omega

theorem oscSplitF_succ_none {fuel : Nat} {l : List Char} (h : splitFirst l = none) :
    oscSplitF (fuel + 1) l = [l] := by
  simp only [oscSplitF, h]

theorem oscSplitF_succ_some {fuel : Nat} {l pre tail : List Char}
    (h : splitFirst l = some (pre, tail)) :
    oscSplitF (fuel + 1) l = pre :: oscSplitF fuel tail := by
  simp only [oscSplitF, h]

theorem oscSplit_two {chunk pre tail : List Char}
    (h1 : splitFirst chunk = some (pre, tail)) (h2 : splitFirst tail = none) :
    oscSplit chunk = [pre, tail] := by
  have hlen := (splitFirst_some h1).2
  obtain ⟨m, hm⟩ : ∃ m, chunk.length = m + 1 := ⟨chunk.length - 1, by omega⟩
  unfold oscSplit
  rw [hm, oscSplitF_succ_some h1]
  obtain ⟨k, hk⟩ : ∃ k, m + 1 = k + 1 := ⟨m, rfl⟩
  rw [oscSplitF_succ_none h2]

theorem findIdx?_eq_none {l : List Char} (h : ∀ c ∈ l, c ≠ '\x07') :
    l.findIdx? (· = '\x07') = none := by
  have main : ∀ (l : List Char) (i : Nat), (∀ c ∈ l, c ≠ '\x07') →
      List.findIdx? (fun c => decide (c = '\x07')) l i = none := by
    intro l
    induction l with
    | nil => intro i h; rfl
    | cons a l ih =>
      intro i h
      rw [List.findIdx?_cons,
        if_neg (by simp only [decide_eq_true_eq]; exact h a (List.mem_cons_self a l))]
      exact ih (i + 1) (fun c hc => h c (List.mem_cons_of_mem a hc))
  exact main l 0 h

/-- C9: a part of a chunk holding a marker introducer with no BEL
terminator anywhere after it in the same chunk is re-injected — the
introducer bytes plus the remainder are routed as literal content to
the buffer of the currently active state (hence discarded in the
`Prompt`/`None` states); the parser state and the recorded events are
unchanged, and nothing is buffered for the next chunk (the result is a
pure literal append). -/
theorem C9_unterminated_marker :
    (∀ (p : SessionParser) (now : Nat) (part : List Char),
      (∀ c ∈ part, c ≠ '\x07') →
      SessionParser.processPart now p part = p.appendToCurrentState (oscStart ++ part)
      ∧ (SessionParser.processPart now p part).state = p.state
      ∧ (SessionParser.processPart now p part).history.Events = p.history.Events)
  ∧ (∀ (p : SessionParser) (now : Nat) (chunk pre tail : List Char),
      splitFirst chunk = some (pre, tail) →
      splitFirst tail = none →
      (∀ c ∈ tail, c ≠ '\x07') →
      p.ParseChunk now chunk
        = (p.appendToCurrentState pre).appendToCurrentState (oscStart ++ tail)
      ∧ (p.ParseChunk now chunk).state = p.state
      ∧ (p.ParseChunk now chunk).history.Events = p.history.Events
      ∧ ((p.state = .StatePrompt ∨ p.state = .StateNone) →
          (p.ParseChunk now chunk).history = p.history)) := by
  have part_level : ∀ (p : SessionParser) (now : Nat) (part : List Char),
      (∀ c ∈ part, c ≠ '\x07') →
      SessionParser.processPart now p part = p.appendToCurrentState (oscStart ++ part) := by
    intro p now part h
    unfold SessionParser.processPart
    rw [findIdx?_eq_none h]
  have chunk_level : ∀ (p : SessionParser) (now : Nat) (chunk pre tail : List Char),
      splitFirst chunk = some (pre, tail) → splitFirst tail = none →
      (∀ c ∈ tail, c ≠ '\x07') →
      p.ParseChunk now chunk
        = (p.appendToCurrentState pre).appendToCurrentState (oscStart ++ tail) := by
    intro p now chunk pre tail h1 h2 h3
    unfold SessionParser.ParseChunk
    rw [oscSplit_two h1 h2]
    simp only [List.foldl_cons, List.foldl_nil]
    rw [part_level _ now tail h3]
  refine ⟨?_, ?_⟩
  · intro p now part h
    refine ⟨part_level p now part h, ?_, ?_⟩
    · rw [part_level p now part h, appendToCurrentState_state]
    · rw [part_level p now part h, appendToCurrentState_Events]
  · intro p now chunk pre tail h1 h2 h3
    refine ⟨chunk_level p now chunk pre tail h1 h2 h3, ?_, ?_, ?_⟩
    · rw [chunk_level p now chunk pre tail h1 h2 h3, appendToCurrentState_state,
        appendToCurrentState_state]
    · rw [chunk_level p now chunk pre tail h1 h2 h3, appendToCurrentState_Events,
        appendToCurrentState_Events]
    · intro hin
      rw [chunk_level p now chunk pre tail h1 h2 h3,
        appendToCurrentState_of_inactive hin,
        appendToCurrentState_of_inactive hin]

theorem C9_unterminated_marker_witness :
    splitFirst "ab\x1b]133;D;0".toList = some ("ab".toList, "D;0".toList)
  ∧ NewSessionParser.ParseChunk 0 "ab\x1b]133;D;0".toList
      = (NewSessionParser.appendToCurrentState "ab".toList).appendToCurrentState
          (oscStart ++ "D;0".toList)
  ∧ (NewSessionParser.ParseChunk 0 "ab\x1b]133;D;0".toList).history
      = NewSessionParser.history := by
  have h := C9_unterminated_marker.2 NewSessionParser 0 "ab\x1b]133;D;0".toList
    "ab".toList "D;0".toList (by decide) (by decide) (by decide)
  exact ⟨by decide, h.1, h.2.2.2 (Or.inr rfl)⟩

/-- C4 (amended): on a line terminator, LLM interception fires if and
only if the accumulated line literally begins with "??" or with
" ??" (exactly one leading space) — not for arbitrary leading
whitespace; any non-matching line forwards the terminator byte to the
PTY and resets the line buffer. -/
theorem C4_trigger_detection :
    (∀ (buf : List Char) (b : Char), b = '\r' ∨ b = '\n' →
      interceptStep buf b
        = if isTrigger buf then ([], .intercept buf) else ([], .forward b))
  ∧ (∀ buf : List Char,
      isTrigger buf = ("??".toList.isPrefixOf buf || " ??".toList.isPrefixOf buf))
  ∧ (∀ (buf : List Char) (b : Char), b = '\r' ∨ b = '\n' → isTrigger buf = false →
      interceptStep buf b = ([], .forward b)) := by
  refine ⟨?_, fun _ => rfl, ?_⟩
  · intro buf b h
    unfold interceptStep
    rw [if_pos h]
  · intro buf b h htr
    unfold interceptStep
    rw [if_pos h, if_neg (by rw [htr]; simp)]

theorem C4_trigger_detection_witness :
    interceptStep "?? help".toList '\r' = ([], .intercept "?? help".toList)
  ∧ interceptStep "ls -la".toList '\r' = ([], .forward '\r') := by
  constructor
  · rw [C4_trigger_detection.1 "?? help".toList '\r' (Or.inl rfl)]
    decide
  · exact C4_trigger_detection.2.2 "ls -la".toList '\r' (Or.inl rfl) (by decide)

/-- C4 counterexample to the claim as stated: the line "  ??" (two
leading spaces) trims to text beginning with "??", yet the terminator
is forwarded and no interception fires. -/
theorem C4_trigger_detection_counterexample :
    "??".toList.isPrefixOf (goTrimSpace "  ??".toList) = true
  ∧ interceptStep "  ??".toList '\r' = ([], .forward '\r') := by
  decide

/-- C5 (amended): backspace/delete (127 or 8) shrinks the line buffer
by one (leaving an empty buffer unchanged) and is forwarded to the PTY;
Ctrl+C (3) resets the buffer and is forwarded; Ctrl+D (4) is forwarded
unmodified but leaves the line buffer unchanged — it does not reset
it. -/
theorem C5_control_bytes :
    (∀ (buf : List Char) (b : Char), b = '\x7f' ∨ b = '\x08' →
      interceptStep buf b = (buf.dropLast, .forward b))
  ∧ (∀ b : Char, b = '\x7f' ∨ b = '\x08' → interceptStep [] b = ([], .forward b))
  ∧ (∀ buf : List Char, interceptStep buf '\x03' = ([], .forward '\x03'))
  ∧ (∀ buf : List Char, interceptStep buf '\x04' = (buf, .forward '\x04')) := by
  refine ⟨?_, ?_, fun _ => rfl, fun _ => rfl⟩
  · intro buf b h
    rcases h with rfl | rfl <;> rfl
  · intro b h
    rcases h with rfl | rfl <;> rfl

theorem C5_control_bytes_witness :
    interceptStep "ab".toList '\x7f' = ("a".toList, .forward '\x7f') := by
  rw [C5_control_bytes.1 "ab".toList '\x7f' (Or.inl rfl)]
  decide

/-- C5 counterexample to the claim as stated: Ctrl+D on a non-empty
buffer is forwarded but the buffer is not reset to empty. -/
theorem C5_control_bytes_counterexample :
    interceptStep ['a'] '\x04' = (['a'], .forward '\x04')
  ∧ (['a'] : List Char) ≠ [] := by
  decide

theorem interceptStep_length_le {buf : List Char} (b : Char) (h : buf.length ≤ 1024) :
    ((interceptStep buf b).1).length ≤ 1024 := by
  unfold interceptStep
  split_ifs with h1 h2 h3 h4 h5 h6
  · simp
  · simp
  · simp only
    rw [List.length_dropLast]
    omega
  · simp
  · simpa using h
  · simp only [List.length_append, List.length_cons, List.length_nil]
    omega
  · simpa using h

/-- C10: the interceptor's line buffer never exceeds 1024 bytes for any
input byte sequence; backspace on an empty buffer does not underflow;
and an ordinary byte arriving with the buffer at 1024 bytes is
forwarded to the PTY but not recorded, so trigger detection sees only
the first 1024 bytes of a logical line. -/
theorem C10_input_buffer_bounds :
    (∀ bs : List Char, (runBytes bs).length ≤ 1024)
  ∧ (∀ (buf : List Char) (b : Char), buf.length ≤ 1024 →
      ((interceptStep buf b).1).length ≤ 1024)
  ∧ (∀ (buf : List Char) (b : Char), buf.length = 1024 →
      ¬(b = '\r' ∨ b = '\n') → ¬(b = '\x7f' ∨ b = '\x08') → b ≠ '\x03' → b ≠ '\x04' →
      interceptStep buf b = (buf, .forward b))
  ∧ interceptStep [] '\x7f' = ([], .forward '\x7f') := by
  refine ⟨?_, fun buf b h => interceptStep_length_le b h, ?_, by decide⟩
  · intro bs
    have main : ∀ (bs buf : List Char), buf.length ≤ 1024 →
        (bs.foldl (fun buf b => (interceptStep buf b).1) buf).length ≤ 1024 := by
      intro bs
      induction bs with
      | nil => intro buf h; simpa using h
      | cons b bs ih =>
        intro buf h
        rw [List.foldl_cons]
        exact ih _ (interceptStep_length_le b h)
    exact main bs [] (by simp)
  · intro buf b hlen h1 h2 h3 h4
    unfold interceptStep
    rw [if_neg h1, if_neg h2, if_neg h3, if_neg h4, if_neg (by omega)]

theorem C10_input_buffer_bounds_witness :
    interceptStep (List.replicate 1024 'a') 'b' = (List.replicate 1024 'a', .forward 'b')
  ∧ (runBytes "xy".toList).length ≤ 1024 := by
  constructor
  · exact C10_input_buffer_bounds.2.2.1 (List.replicate 1024 'a') 'b'
      (List.length_replicate 1024 'a') (by decide) (by decide) (by decide) (by decide)
  · exact C10_input_buffer_bounds.1 "xy".toList
